import Mathlib

/-!
Verification development for the `spack info` command module
(`lib/spack/spack/cmd/info.py`): a shallow embedding of its variant
report rendering and of its simple field formatters, with theorems
settling the claims of the specification.

Conventions of the embedding:
* Python strings are `String`; the terminal output is the list of
  printed lines, a printed string being split at its embedded newline
  characters (`emitLines`).
* The external colorizer (`llnl.util.tty.color`) resolves markup of the
  shape `@x` followed by braced text; `color.colorize` is modeled as the
  identity on the markup text, `color.clen` as the visible length with
  the markup stripped, `color.cescape` as doubling every `@`.
* `spack.spec.Spec` conditions are modeled by their textual form, the
  empty spec `Spec()` being the empty string.
* Python values appearing as variant defaults and variant values are
  `PyVal` (`None`, `bool`, `str`).
* `textwrap.wrap` / `textwrap.fill` (Python standard library, not part
  of this repository) are modeled by a greedy word packer with the
  indent prefixed to every produced line; `pprint.pprint` and object
  `repr`s are modeled by deterministic renderings (memory addresses of
  the real object reprs elided).
-/

/-- The literal left-brace character as a string. -/
def lbrace : String := "\x7b"

/-- The literal right-brace character as a string. -/
def rbrace : String := "\x7d"

/-- `n * " "` of the Python source. -/
def spacesN (n : Nat) : String := String.mk (List.replicate n ' ')

/-- Python string slicing `s[n:]`. -/
def strDrop (s : String) (n : Nat) : String := String.mk (s.data.drop n)

/-- Python `sep.join(parts)`. -/
def joinSep (sep : String) : List String → String
  | [] => ""
  | [s] => s
  | s :: rest => s ++ sep ++ joinSep sep rest

/-- Split a character list at every occurrence of the separator. -/
def splitSepAux (sep : Char) : List Char → List (List Char)
  | [] => [[]]
  | c :: cs =>
    match splitSepAux sep cs with
    | [] => [[]]
    | l :: ls => if c = sep then [] :: l :: ls else (c :: l) :: ls

/-- Python `s.split("\n")`, and the decomposition of a printed string
into the terminal lines it produces. -/
def splitLines (s : String) : List String := (splitSepAux '\n' s.data).map String.mk

/-- The terminal lines produced by printing the string `s`. -/
def emitLines (s : String) : List String := splitLines s

/-- Python `s.split()` restricted to spaces, as used by the word
wrapper: fragments between spaces, empty fragments discarded. -/
def splitWords (s : String) : List String :=
  ((splitSepAux ' ' s.data).map String.mk).filter (fun w => decide (w ≠ ""))

/-- Greedy packing of words into lines of at most `width` characters,
separated by single spaces; an overlong word occupies its own line. -/
def greedyPack (width : Nat) (cur : String) : List String → List String
  | [] => [cur]
  | w :: ws =>
    if cur.length + 1 + w.length ≤ width then greedyPack width (cur ++ " " ++ w) ws
    else cur :: greedyPack width w ws

/-- Model of `textwrap.wrap(text, width=width, initial_indent=ind,
subsequent_indent=ind)` as used by the source (both indents equal). -/
def textwrap_wrap (width : Nat) (ind : String) (text : String) : List String :=
  match splitWords text with
  | [] => []
  | w :: ws => (greedyPack (width - ind.length) w ws).map (fun l => ind ++ l)

/-- Model of `textwrap.fill` (wrap, then join with newlines). -/
def textwrap_fill (width : Nat) (ind : String) (text : String) : String :=
  joinSep "\n" (textwrap_wrap width ind text)

/-- A Python value that may occur as a variant default or legal value. -/
inductive PyVal where
  | none
  | bool (b : Bool)
  | str (s : String)
  deriving DecidableEq

/-- The shape of the `values` attribute of a variant: either a
recognized sequence (`tuple`/`list`/`DisjointSetsOfValues`, collapsed
to one sequence constructor) or a bare scalar. -/
inductive VariantValues where
  | scalar (v : PyVal)
  | seq (vs : List PyVal)
  deriving DecidableEq

/-- The variant metadata consumed from the package model.  Python's
`==` on these objects is structural equality of the fields. -/
structure Variant where
  name : String
  default : PyVal
  values : VariantValues
  description : String
  deriving DecidableEq

/-- `_fmt_value` of the source: `str(v).lower()` for `None` and
booleans, `str(v)` otherwise. -/
def fmt_value : PyVal → String
  | PyVal.none => "none"
  | PyVal.bool b => if b then "true" else "false"
  | PyVal.str s => s

/-- Visible length of markup text: every `@` swallows the following
character, braces are markup delimiters and not counted. -/
def clenAux : List Char → Nat
  | [] => 0
  | ['@'] => 0
  | '@' :: _ :: cs => clenAux cs
  | c :: cs =>
    if c = Char.ofNat 123 ∨ c = Char.ofNat 125 then clenAux cs else 1 + clenAux cs

/-- Model of `color.clen`. -/
def clen (s : String) : Nat := clenAux s.data

/-- Model of `color.cescape`: double every `@`. -/
def cescapeList : List Char → List Char
  | [] => []
  | c :: cs => if c = '@' then '@' :: '@' :: cescapeList cs else c :: cescapeList cs

/-- Model of `color.cescape` on strings. -/
def cescape (s : String) : String := String.mk (cescapeList s.data)

/-- The string contains no newline character. -/
def noNl (s : String) : Bool := s.data.all (fun c => decide (c ≠ '\n'))

/-- Boolean list-segment test: the first list is an initial segment of
the second. -/
def leadsWith : List Char → List Char → Bool
  | [], _ => true
  | _ :: _, [] => false
  | a :: as, b :: bs => decide (a = b) && leadsWith as bs

/-- `_fmt_name_and_default` of the source (`color.colorize` modeled as
the identity on the markup text). -/
def fmt_name_and_default (v : Variant) : String :=
  "@c" ++ lbrace ++ v.name ++ rbrace ++ " @C" ++ lbrace ++ "[" ++ fmt_value v.default ++ "]" ++ rbrace

/-- Python `repr` of a value, as shown by the debug `print`. -/
def reprPyVal : PyVal → String
  | PyVal.none => "None"
  | PyVal.bool b => if b then "True" else "False"
  | PyVal.str s => "\x27" ++ s ++ "\x27"

/-- The debug line `print(type(values), values)` of `_fmt_variant`
emits after normalizing a scalar `values` into a one-element list. -/
def debug_print_line (values : List PyVal) : String :=
  "\x3cclass \x27list\x27\x3e [" ++ joinSep ", " (values.map reprPyVal) ++ "]"

/-- The value sequence `_fmt_variant` iterates over: a recognized
sequence is used as is, a scalar is wrapped into a one-element list. -/
def variantValuesList : VariantValues → List PyVal
  | VariantValues.scalar v => [v]
  | VariantValues.seq vs => vs

/-- The debug output of the normalization branch: nothing for a
recognized sequence, the debug print for a scalar. -/
def variantDebugLines : VariantValues → List String
  | VariantValues.scalar v => emitLines (debug_print_line [v])
  | VariantValues.seq _ => []

/-- Rank used to order values of different Python types.  (CPython
would raise `TypeError` on such comparisons; real variant data is
homogeneous and never reaches the cross-type case.) -/
def pyValRank : PyVal → Nat
  | PyVal.none => 0
  | PyVal.bool _ => 1
  | PyVal.str _ => 2

/-- Ordering of Python values within the sort key. -/
def pyValLe : PyVal → PyVal → Bool
  | PyVal.bool a, PyVal.bool b => !a || b
  | PyVal.str a, PyVal.str b => decide (a ≤ b)
  | a, b => decide (pyValRank a ≤ pyValRank b)

/-- The sort key `lambda v: (v != "none", v)`: the literal `"none"`
first, the rest by value. -/
def pyKeyLe (a b : PyVal) : Bool :=
  let ka : Bool := decide (a ≠ PyVal.str "none")
  let kb : Bool := decide (b ≠ PyVal.str "none")
  if ka = kb then pyValLe a b else !ka

/-- Insertion step of the stable sort. -/
def insertLe (x : PyVal) : List PyVal → List PyVal
  | [] => [x]
  | y :: ys => if pyKeyLe y x then y :: insertLe x ys else x :: y :: ys

/-- Model of Python `sorted(values, key=lambda v: (v != "none", v))`. -/
def pySort : List PyVal → List PyVal
  | [] => []
  | x :: xs => insertLe x (pySort xs)

/-- The textual form of the empty condition `spack.spec.Spec()`. -/
def specEmpty : String := ""

/-- The `name [default]   value1, value2, ...` string printed by
`_fmt_variant` (one `color.cprint` call; may contain newlines from the
wrapped value list). -/
def values_line (cols : Nat) (variant : Variant) (ml indent : Nat) : String :=
  let name_and_default := fmt_name_and_default variant
  let name_default_len := clen name_and_default
  let sorted_values := pySort (variantValuesList variant.values)
  let value_indent := spacesN (indent + ml + 4)
  let joined := joinSep ", " (sorted_values.map fmt_value)
  let formatted_values :=
    strDrop (joinSep "\n" (textwrap_wrap (cols - 2) value_indent joined)) (indent + name_default_len + 4)
  spacesN indent ++ name_and_default ++ spacesN 4 ++ "@c" ++ lbrace ++ formatted_values ++ rbrace

/-- The `when <spec>` string printed by `_fmt_variant` for a non-empty
condition. -/
def whenLineStr (indent : Nat) (when : String) : String :=
  spacesN (indent * 2) ++ "@B" ++ lbrace ++ "when" ++ rbrace ++ " " ++ cescape when

/-- `_fmt_variant_description` of the source: split the description at
explicit newlines, fill each piece independently, rejoin. -/
def fmt_variant_description (variant : Variant) (width indent : Nat) : String :=
  joinSep "\n" ((splitLines variant.description).map (fun line => textwrap_fill width (spacesN indent) line))

/-- `_fmt_variant` of the source: the terminal lines produced for one
variant definition under one condition. -/
def fmt_variant (cols : Nat) (variant : Variant) (when : String) (max_name_default_len indent : Nat) :
    List String :=
  variantDebugLines variant.values ++
  emitLines (values_line cols variant max_name_default_len indent) ++
  (if when ≠ specEmpty then emitLines (whenLineStr indent when) else []) ++
  emitLines (fmt_variant_description variant (cols - 2) (indent * 3))

/-- `section_title` of the source. -/
def section_title (s : String) : String := "@*b" ++ s ++ "@."

/-- Deterministic stand-in for the `repr` of a `Spec` (addresses and
spec internals elided). -/
def reprSpec (w : String) : String := "Spec(" ++ "\x27" ++ w ++ "\x27" ++ ")"

/-- Deterministic stand-in for the `repr` of a `Variant` object. -/
def reprVariant (v : Variant) : String := "Variant(" ++ "\x27" ++ v.name ++ "\x27" ++ ")"

/-- The condition-to-definitions mapping of one variant name
(`variants_by_name` value), in iteration order of the Python dict. -/
abbrev WhenMap := List (String × List Variant)

/-- `pkg.variants_by_name(when=True)`, in iteration order. -/
abbrev VariantsByName := List (String × WhenMap)

/-- The `pprint(when_variants)` debug dump, modeled as a deterministic
one-string rendering of the mapping. -/
def pprint_line (wm : WhenMap) : String :=
  lbrace ++
    joinSep ", " (wm.map (fun wv => reprSpec wv.1 ++ ": [" ++ joinSep ", " (wv.2.map reprVariant) ++ "]")) ++
    rbrace

/-- The `print("    ", len(when_variants), "variants")` line. -/
def count_line (n : Nat) : String := "    " ++ " " ++ Nat.repr n ++ " " ++ "variants"

/-- The `(different)` marker line of `print_variants`. -/
def diff_marker (name : String) : String :=
  "@r" ++ lbrace ++ "-->" ++ rbrace ++ " @r" ++ lbrace ++ name ++ rbrace ++ " (different)"

/-- The `(same)` marker line of `print_variants`. -/
def same_marker (name : String) : String :=
  "@g" ++ lbrace ++ "-->" ++ rbrace ++ " @g" ++ lbrace ++ name ++ rbrace ++ " (same)"

/-- `all(v == all_variants[0] for v in all_variants)`. -/
def all_same : List Variant → Bool
  | [] => true
  | v0 :: rest => rest.all (fun w => decide (w = v0))

/-- The formatted blocks for every (condition, definition) pair of one
name, in mapping order (the inner double loop of `print_variants`). -/
def renderWhenBlocks (cols ml : Nat) (wm : WhenMap) : List String :=
  (wm.map (fun wv => (wv.2.map (fun v => fmt_variant cols v wv.1 ml 4)).flatten)).flatten

/-- The output `print_variants` produces for one variant name: the
debug dump, then either (for several conditions) the count line, the
same/different marker and every pair's block, or (for one condition)
the block of the first definition only. -/
def renderName (cols ml : Nat) (nv : String × WhenMap) : List String :=
  emitLines (pprint_line nv.2) ++
  (if 1 < nv.2.length then
    emitLines (count_line nv.2.length) ++
    (if all_same ((nv.2.map Prod.snd).flatten) = false then emitLines (diff_marker nv.1)
     else emitLines (same_marker nv.1)) ++
    renderWhenBlocks cols ml nv.2
  else
    match nv.2 with
    | [] => []
    | (w, vs) :: _ =>
      match vs with
      | [] => []
      | v0 :: _ => fmt_variant cols v0 w ml 4)

/-- The `max_name_default_len` computation of `print_variants`.  (On a
package with no variant definitions at all Python's `max()` would raise
`ValueError`; that point is unreachable behind the emptiness guard.) -/
def max_name_default_len (vbn : VariantsByName) : Nat :=
  ((vbn.map (fun nv => (nv.2.map (fun wv => wv.2.map (fun v => clen (fmt_name_and_default v)))).flatten)).flatten).foldl
    Nat.max 0

/-- The per-name loop of `print_variants`. -/
def printVariantsGo (cols ml : Nat) : VariantsByName → List String
  | [] => []
  | nv :: rest => renderName cols ml nv ++ printVariantsGo cols ml rest

/-- `print_variants` of the source: the full Variants section. -/
def print_variants (cols : Nat) (vbn : VariantsByName) : List String :=
  if vbn = [] then ["    None"]
  else ["", section_title "Variants:"] ++ printVariantsGo cols (max_name_default_len vbn) vbn

/-- `print_maintainers` of the source: a section only when the
maintainer list is non-empty, no output at all otherwise. -/
def print_maintainers (maintainers : List String) : List String :=
  if 0 < maintainers.length then
    ["", section_title "Maintainers: " ++ joinSep " " (maintainers.map (fun m => "@@" ++ m))]
  else []

/-- `print_phases` of the source: `pkg.builder` without a `phases`
attribute is `Option.none`; a present but empty phase list is also
skipped (Python truthiness). -/
def print_phases (phases : Option (List String)) : List String :=
  match phases with
  | Option.some ps =>
    if ps ≠ [] then
      ["", section_title "Installation Phases:", String.join (ps.map (fun p => "    " ++ p))]
    else []
  | Option.none => []

/-- External `colify` collaborator, modeled as one item per line with
the requested indent of 4. -/
def colify (items : List String) : List String := items.map (fun s => "    " ++ s)

/-- Insertion step of the lexicographic string sort. -/
def strInsertLe (x : String) : List String → List String
  | [] => [x]
  | y :: ys => if decide (y ≤ x) then y :: strInsertLe x ys else x :: y :: ys

/-- Python `sorted` on strings. -/
def sortStrings : List String → List String
  | [] => []
  | x :: xs => strInsertLe x (sortStrings xs)

/-- `print_tags` of the source: `Option.none` models a package object
without a `tags` attribute. -/
def print_tags (tags : Option (List String)) : List String :=
  ["", section_title "Tags: "] ++
  (match tags with
   | Option.some ts => colify (sortStrings ts)
   | Option.none => ["    None"])

/-- One dependency-type section of `print_dependencies`: blank line,
capitalized title, then the sorted names (colified) or `    None`. -/
def dep_section (deptype : String) (deps : List String) : List String :=
  ["", section_title (deptype ++ " Dependencies:")] ++
  (let sorted := sortStrings deps
   if sorted ≠ [] then colify sorted else ["    None"])

/-- `print_dependencies` of the source, taking the three
`dependencies_of_type` results of the package model. -/
def print_dependencies (build link run : List String) : List String :=
  dep_section "Build" build ++ dep_section "Link" link ++ dep_section "Run" run

/-- External color constant `spack.spec.VERSION_COLOR`, modeled as its
markup prefix. -/
def VERSION_COLOR : String := "@c"

/-- `version` of the source: wrap a string in the version color. -/
def version_str (s : String) : String := VERSION_COLOR ++ s ++ "@."

/-- `padder` of the source: the common pad length (longest string plus
`extra`).  (Python's `max()` would raise on an empty list; `padder` is
only reached with a non-empty version set.) -/
def padLength (strs : List String) (extra : Nat) : Nat :=
  (strs.map String.length).foldl Nat.max 0 + extra

/-- The padding closure returned by `padder`. -/
def pad (length : Nat) (s : String) : String := s ++ spacesN (length - s.length)

/-- One Safe/Deprecated group of `print_versions`: blank line, title,
then `    None` or one padded line per (version, url) pair. -/
def version_group (padlen : Nat) (title : String) (vers : List (String × String)) : List String :=
  ["", section_title (title ++ " versions:  ")] ++
  (if vers = [] then [version_str "    None"]
   else vers.map (fun vu => version_str ("    " ++ pad padlen vu.1) ++ cescape vu.2))

/-- `print_versions` of the source.  A version is its string form plus
its deprecated flag; the external collaborators the spec places out of
scope are parameters: `preferred` (the external preference function's
pick), `urlOf` (`fs.for_package_version`), and `sortDesc` (the
most-recent-first ordering `reversed(sorted(...))` of the external
version model). -/
def print_versions (versions : List (String × Bool)) (preferred : String) (has_code : Bool)
    (urlOf : String → String) (sortDesc : List (String × Bool) → List (String × Bool)) :
    List String :=
  ["", section_title "Preferred version:  "] ++
  (if versions = [] then
    [version_str "    None", "", section_title "Safe versions:  ", version_str "    None",
     "", section_title "Deprecated versions:  ", version_str "    None"]
  else
    let padlen := padLength (versions.map Prod.fst) 4
    let purl := if has_code then urlOf preferred else ""
    let withUrls := (sortDesc versions).map (fun v => (v, if has_code then urlOf v.1 else ""))
    let safe := (withUrls.filter (fun vu => !vu.1.2)).map (fun vu => (vu.1.1, vu.2))
    let deprecated := (withUrls.filter (fun vu => vu.1.2)).map (fun vu => (vu.1.1, vu.2))
    [version_str ("    " ++ pad padlen preferred) ++ cescape purl] ++
    version_group padlen "Safe" safe ++ version_group padlen "Deprecated" deprecated)

/-- One phase-callback section of `print_tests`: an absent or `None`
callback attribute is `Option.none`; `hasAttr` models the
`getattr(pkg, name, False)` truthiness probe. -/
def test_section (phase : String) (callbacks : Option (List String)) (hasAttr : String → Bool) :
    List String :=
  ["", section_title ("Available " ++ phase ++ " Phase Test Methods:")] ++
  (let names := match callbacks with
    | Option.some cbs => cbs.filter hasAttr
    | Option.none => []
   if names ≠ [] then colify (sortStrings names) else ["    None"])

/-- `print_tests` of the source; `standalone` is the external
`spack.install_test.test_function_names` result. -/
def print_tests (build_cbs install_cbs : Option (List String)) (hasAttr : String → Bool)
    (standalone : List String) : List String :=
  test_section "Build" build_cbs hasAttr ++ test_section "Install" install_cbs hasAttr ++
  ["", section_title "Stand-Alone/Smoke Test Methods:"] ++
  (if standalone ≠ [] then colify (sortStrings standalone) else ["    None"])

/-- The column-width computation of `VariantFormatter.__init__`
(lines 83-93), as a function of the prior `self.column_widths` value it
reads and of the terminal width `cols`. -/
def compute_column_widths (column_widths : Nat × Nat × Nat × Nat) (cols : Nat) :
    Nat × Nat × Nat × Nat :=
  let max_name := min column_widths.1 30
  let max_when := min column_widths.2.1 30
  let max_vals := min column_widths.2.2.1 20
  let max_description := min column_widths.2.2.2 (max cols 70 - max_name - max_vals - 14)
  (max_name, max_when, max_vals, max_description)

/-- The `self.fmt` format string of `VariantFormatter.__init__`. -/
def fmt_string (cw : Nat × Nat × Nat × Nat) : String :=
  "%-" ++ Nat.repr (cw.1 + 4) ++ "s%-" ++ Nat.repr (cw.2.1 + 4) ++ "s%-" ++
    Nat.repr (cw.2.2.1 + 4) ++ "s%s"

/-- The package object, as far as the variant formatters consume it. -/
structure Pkg where
  variants : VariantsByName

/-- The attribute store of a `VariantFormatter` instance; every
attribute starts absent and becomes present when first assigned. -/
structure VFState where
  variants : Option VariantsByName
  headers : Option (String × String × String × String)
  column_widths : Option (Nat × Nat × Nat × Nat)
  fmt : Option String

/-- Reading `self.column_widths`: an `AttributeError` when the
attribute has never been assigned. -/
def VariantFormatter_getattr_column_widths (s : VFState) : Except String (Nat × Nat × Nat × Nat) :=
  match s.column_widths with
  | Option.some cw => Except.ok cw
  | Option.none => Except.error "AttributeError: column_widths"

/-- `VariantFormatter.__init__` of the source, with the attribute
assignments made explicit: it assigns `self.variants` and
`self.headers`, then reads `self.column_widths` (line 83) before that
attribute is ever assigned. -/
def VariantFormatter_init (pkg : Pkg) (cols : Nat) : Except String VFState :=
  let s0 : VFState := ⟨Option.none, Option.none, Option.none, Option.none⟩
  let s1 : VFState := ⟨Option.some pkg.variants, s0.headers, s0.column_widths, s0.fmt⟩
  let s2 : VFState :=
    ⟨s1.variants, Option.some ("Name [Default]", "When", "Allowed values", "Description"),
      s1.column_widths, s1.fmt⟩
  match VariantFormatter_getattr_column_widths s2 with
  | Except.error e => Except.error e
  | Except.ok cw =>
    let new := compute_column_widths cw cols
    let s3 : VFState := ⟨s2.variants, s2.headers, Option.some new, s2.fmt⟩
    let s4 : VFState := ⟨s3.variants, s3.headers, s3.column_widths, Option.some (fmt_string new)⟩
    Except.ok s4

/-- `l` occurs as a contiguous segment of `big`. -/
def segOf (l big : List String) : Prop := ∃ p q, big = p ++ (l ++ q)

/-- Well-formedness of real package variant data, as the theorems about
single terminal lines need it: the raw strings embedded unwrapped into
output lines contain no newline character. -/
def variantWf (v : Variant) : Bool :=
  noNl v.name && noNl (fmt_value v.default) &&
    (variantValuesList v.values).all (fun x => noNl (fmt_value x) && noNl (reprPyVal x))

/-- The fixed initial text of the `when` line at the indent (4) used by
`print_variants`. -/
def when_marker : String :=
  spacesN 8 ++ "@B" ++ lbrace ++ "when" ++ rbrace ++ " "

/-- A terminal line is a `when` line: it starts with the fixed `when`
line text. -/
def whenLinePred (l : String) : Bool := leadsWith when_marker.data l.data

/-- Example variant `a` used by concrete witnesses. -/
def exA : Variant := ⟨"a", PyVal.bool true, VariantValues.seq [PyVal.str "x"], "da"⟩

/-- Example variant `b` used by concrete witnesses. -/
def exB : Variant := ⟨"b", PyVal.str "y", VariantValues.seq [PyVal.str "y", PyVal.none], "db"⟩

/-- A name with two conditions carrying structurally different
definitions. -/
def c1_vbn : VariantsByName := [("m", [(specEmpty, [exA]), ("+x", [exB])])]

/-- A name with one condition carrying two definitions. -/
def c10_vbn : VariantsByName := [("n", [(specEmpty, [exA, exB])])]

/-- Character-level join of lines with single newline separators (the
`.data` image of `joinSep "\n"`). -/
def joinCharNl : List (List Char) → List Char
  | [] => []
  | [w] => w
  | w :: rest => w ++ '\n' :: joinCharNl rest

theorem segOf_append_left (p : List String) {l big : List String} (h : segOf l big) :
    segOf l (p ++ big) := by
  obtain ⟨x, y, rfl⟩ := h
  exact ⟨p ++ x, y, by simp⟩

theorem segOf_trans {a b c : List String} (h1 : segOf a b) (h2 : segOf b c) : segOf a c := by
  obtain ⟨x, y, rfl⟩ := h1
  obtain ⟨u, v, rfl⟩ := h2
  exact ⟨u ++ x, y ++ v, by simp⟩

theorem segOf_of_mem_flatten {l : List String} {L : List (List String)} (h : l ∈ L) :
    segOf l L.flatten := by
  induction L with
  | nil => cases h
  | cons a t ih =>
    rcases List.mem_cons.mp h with h1 | h2
    · subst h1
      exact ⟨[], t.flatten, by simp⟩
    · rw [List.flatten_cons]
      exact segOf_append_left a (ih h2)

theorem printVariantsGo_eq (cols ml : Nat) (l : VariantsByName) :
    printVariantsGo cols ml l = (l.map (renderName cols ml)).flatten := by
  induction l with
  | nil => rfl
  | cons a t ih => simp [printVariantsGo, ih]

theorem renderName_seg (cols : Nat) {vbn : VariantsByName} {nv : String × WhenMap}
    (h : nv ∈ vbn) :
    segOf (renderName cols (max_name_default_len vbn) nv) (print_variants cols vbn) := by
  have hne : vbn ≠ [] := by rintro rfl; cases h
  rw [print_variants, if_neg hne, printVariantsGo_eq]
  exact segOf_append_left _ (segOf_of_mem_flatten (List.mem_map_of_mem _ h))

/-- Claim C9: constructing `VariantFormatter` always raises an
exception: `__init__` reads `self.column_widths` (to compute the capped
column widths) before that attribute is ever assigned, for every
package object and terminal width, so the tabular layout class can
never be instantiated.  (`print_variants` does not mention the class.) -/
theorem variantformatter_init_raises (pkg : Pkg) (cols : Nat) :
    VariantFormatter_init pkg cols = Except.error "AttributeError: column_widths" := rfl

/-- Claim C4 counterexample: at prior widths (10, 10, 10, 1000) and
terminal width 40 the code computes a description width of 36 =
70 − 10 − 10 − 14, which differs from the claimed formula
`max(cols, 70) − (sum of the other three widths) − 14` = 26: the
when-column width is never subtracted. -/
theorem description_width_counterexample :
    (compute_column_widths (10, 10, 10, 1000) 40).2.2.2 = 36 ∧
    (compute_column_widths (10, 10, 10, 1000) 40).2.2.2 ≠
      max 40 70 - (min 10 30 + min 10 30 + min 10 20) - 14 := by
  constructor
  · decide
  · decide

/-- Claim C4 (amended): the description column width is
`min(prior description width, max(cols, 70) − name width − values width
− 14)`; the when-column width is not subtracted (the result is
independent of it), and any terminal width of at most 70 is treated
exactly like the floor width 70. -/
theorem description_width_formula (cw0 cw1 cw1' cw2 cw3 cols : Nat) (h : cols ≤ 70) :
    (compute_column_widths (cw0, cw1, cw2, cw3) cols).2.2.2 =
      min cw3 (70 - min cw0 30 - min cw2 20 - 14) ∧
    (compute_column_widths (cw0, cw1, cw2, cw3) cols).2.2.2 =
      (compute_column_widths (cw0, cw1', cw2, cw3) cols).2.2.2 ∧
    compute_column_widths (cw0, cw1, cw2, cw3) cols =
      compute_column_widths (cw0, cw1, cw2, cw3) 70 := by
  have hm : max cols 70 = 70 := Nat.max_eq_right h
  refine ⟨?_, ?_, ?_⟩ <;> simp [compute_column_widths, hm]

/-- Witness for the amended C4 theorem at terminal width 40. -/
theorem description_width_formula_witness :
    (40 ≤ 70) ∧
    ((compute_column_widths (10, 7, 10, 1000) 40).2.2.2 =
        min 1000 (70 - min 10 30 - min 10 20 - 14) ∧
      (compute_column_widths (10, 7, 10, 1000) 40).2.2.2 =
        (compute_column_widths (10, 9, 10, 1000) 40).2.2.2 ∧
      compute_column_widths (10, 7, 10, 1000) 40 =
        compute_column_widths (10, 7, 10, 1000) 70) :=
  ⟨by decide, description_width_formula 10 7 9 10 1000 40 (by decide)⟩

/-- Claim C2 counterexample: in the block actually produced for the
variant report (`_fmt_name_and_default`), a boolean default `True` is
rendered as the token `true`, not `on`. -/
theorem bool_default_not_on :
    fmt_name_and_default
        ⟨"shared", PyVal.bool true, VariantValues.seq [PyVal.str "on", PyVal.str "off"], ""⟩ =
      "@c\x7bshared\x7d @C\x7b[true]\x7d" ∧
    fmt_value (PyVal.bool true) = "true" ∧ ("true" : String) ≠ "on" := by
  refine ⟨by decide, by decide, by decide⟩

/-- Claim C2 (amended): the `name [default]` block renders a boolean
default as the lowercase literal `true`/`false` (`str(v).lower()`), a
`None` default as `none`, and a string default as its literal value. -/
theorem bool_default_lowercase (name : String) (vals : VariantValues) (desc : String)
    (b : Bool) (s : String) :
    fmt_name_and_default ⟨name, PyVal.bool b, vals, desc⟩ =
      "@c" ++ lbrace ++ name ++ rbrace ++ " @C" ++ lbrace ++ "[" ++
        (if b then "true" else "false") ++ "]" ++ rbrace ∧
    fmt_name_and_default ⟨name, PyVal.str s, vals, desc⟩ =
      "@c" ++ lbrace ++ name ++ rbrace ++ " @C" ++ lbrace ++ "[" ++ s ++ "]" ++ rbrace ∧
    fmt_name_and_default ⟨name, PyVal.none, vals, desc⟩ =
      "@c" ++ lbrace ++ name ++ rbrace ++ " @C" ++ lbrace ++ "[" ++ "none" ++ "]" ++ rbrace :=
  ⟨rfl, rfl, rfl⟩

/-- Claim C5 (code-bug evidence): a scalar `values` attribute is
normalized into a one-element sequence and the variant block renders
fully, but the normalization is not silent: the debug
`print(type(values), values)` line precedes the block. -/
theorem scalar_values_debug_print :
    fmt_variant 80
        ⟨"libs", PyVal.str "shared", VariantValues.scalar (PyVal.str "shared"), "lib type"⟩
        specEmpty 20 4 =
      ["\x3cclass \x27list\x27\x3e [\x27shared\x27]",
       "    @c\x7blibs\x7d @C\x7b[shared]\x7d    @c\x7b       shared\x7d",
       "            lib type"] ∧
    (fmt_variant 80
        ⟨"libs", PyVal.str "shared", VariantValues.scalar (PyVal.str "shared"), "lib type"⟩
        specEmpty 20 4).head? =
      Option.some (debug_print_line [PyVal.str "shared"]) := by
  constructor <;> decide

/-- Claim C6 counterexample: an empty maintainer list produces no
output at all from `print_maintainers` — in particular no explicit
`None` rendering. -/
theorem maintainers_empty_silent :
    print_maintainers [] = [] ∧ "    None" ∉ print_maintainers [] := by
  refine ⟨rfl, ?_⟩
  simp [print_maintainers]

/-- Claim C6 (amended): formatters disagree on empty fields — the
variants, dependencies, versions and tests formatters (and an absent
tags attribute) render explicit `    None` lines, but
`print_maintainers` and `print_phases` emit nothing at all when their
field is empty or absent, and a present-but-empty tag list is colified
to nothing rather than rendering `None`. -/
theorem empty_field_renderings (cols : Nat) (preferred : String) (has_code : Bool)
    (urlOf : String → String) (sortDesc : List (String × Bool) → List (String × Bool))
    (hasAttr : String → Bool) :
    print_maintainers [] = [] ∧
    print_phases Option.none = [] ∧
    print_phases (Option.some []) = [] ∧
    print_variants cols [] = ["    None"] ∧
    print_tags Option.none = ["", section_title "Tags: ", "    None"] ∧
    print_tags (Option.some []) = ["", section_title "Tags: "] ∧
    print_dependencies [] [] [] =
      ["", section_title "Build Dependencies:", "    None",
       "", section_title "Link Dependencies:", "    None",
       "", section_title "Run Dependencies:", "    None"] ∧
    print_versions [] preferred has_code urlOf sortDesc =
      ["", section_title "Preferred version:  ", version_str "    None",
       "", section_title "Safe versions:  ", version_str "    None",
       "", section_title "Deprecated versions:  ", version_str "    None"] ∧
    print_tests Option.none Option.none hasAttr [] =
      ["", section_title "Available Build Phase Test Methods:", "    None",
       "", section_title "Available Install Phase Test Methods:", "    None",
       "", section_title "Stand-Alone/Smoke Test Methods:", "    None"] := by
  refine ⟨rfl, rfl, by simp [print_phases], by simp [print_variants], rfl, rfl,
    by simp [print_dependencies, dep_section, sortStrings],
    by simp [print_versions, section_title],
    by simp [print_tests, test_section, sortStrings, colify]⟩

/-- Claim C8: before each name's formatted blocks `print_variants`
emits the `pprint` dump of that name's condition-to-definitions
mapping, and additionally a count line when the name has more than one
condition — extra output beyond headers, markers and variant blocks. -/
theorem pprint_debug_dump (cols : Nat) (vbn : VariantsByName) (nv : String × WhenMap)
    (hmem : nv ∈ vbn) :
    (∃ rest, renderName cols (max_name_default_len vbn) nv =
        emitLines (pprint_line nv.2) ++ rest) ∧
    segOf (emitLines (pprint_line nv.2)) (print_variants cols vbn) ∧
    (1 < nv.2.length →
      segOf (emitLines (count_line nv.2.length)) (print_variants cols vbn)) := by
  have hseg := renderName_seg cols hmem
  refine ⟨⟨_, rfl⟩, ?_, ?_⟩
  · exact segOf_trans ⟨[], _, rfl⟩ hseg
  · intro hlen
    have h2 : segOf (emitLines (count_line nv.2.length))
        (renderName cols (max_name_default_len vbn) nv) := by
      simp only [renderName, if_pos hlen]
      apply segOf_append_left
      rw [List.append_assoc]
      exact ⟨[], _, rfl⟩
    exact segOf_trans h2 hseg

/-- Witness for the C8 theorem on a two-condition mapping. -/
theorem pprint_debug_dump_witness :
    (("m", [(specEmpty, [exA]), ("+x", [exB])]) ∈ c1_vbn) ∧
    ((∃ rest, renderName 80 (max_name_default_len c1_vbn)
          ("m", [(specEmpty, [exA]), ("+x", [exB])]) =
        emitLines (pprint_line [(specEmpty, [exA]), ("+x", [exB])]) ++ rest) ∧
      segOf (emitLines (pprint_line [(specEmpty, [exA]), ("+x", [exB])]))
        (print_variants 80 c1_vbn) ∧
      (1 < ([(specEmpty, [exA]), ("+x", [exB])] : WhenMap).length →
        segOf (emitLines (count_line ([(specEmpty, [exA]), ("+x", [exB])] : WhenMap).length))
          (print_variants 80 c1_vbn))) :=
  ⟨by decide, pprint_debug_dump 80 c1_vbn ("m", [(specEmpty, [exA]), ("+x", [exB])]) (by decide)⟩

/-- Claim C10: for a variant name mapped to exactly one condition,
`print_variants` renders (beyond the debug dump) only the first
definition recorded under that condition; any further definitions in
the list are omitted from the rendered output. -/
theorem single_condition_first_definition_only (cols : Nat) (vbn : VariantsByName)
    (name w : String) (v0 : Variant) (rest : List Variant)
    (hmem : (name, [(w, v0 :: rest)]) ∈ vbn) :
    renderName cols (max_name_default_len vbn) (name, [(w, v0 :: rest)]) =
      emitLines (pprint_line [(w, v0 :: rest)]) ++
        fmt_variant cols v0 w (max_name_default_len vbn) 4 ∧
    segOf (emitLines (pprint_line [(w, v0 :: rest)]) ++
        fmt_variant cols v0 w (max_name_default_len vbn) 4)
      (print_variants cols vbn) := by
  have heq : renderName cols (max_name_default_len vbn) (name, [(w, v0 :: rest)]) =
      emitLines (pprint_line [(w, v0 :: rest)]) ++
        fmt_variant cols v0 w (max_name_default_len vbn) 4 := by
    simp [renderName]
  exact ⟨heq, heq ▸ renderName_seg cols hmem⟩

/-- Witness for the C10 theorem: one condition with two recorded
definitions; only the first is rendered. -/
theorem single_condition_first_definition_only_witness :
    (("n", [(specEmpty, [exA, exB])]) ∈ c10_vbn) ∧
    (renderName 80 (max_name_default_len c10_vbn) ("n", [(specEmpty, [exA, exB])]) =
        emitLines (pprint_line [(specEmpty, [exA, exB])]) ++
          fmt_variant 80 exA specEmpty (max_name_default_len c10_vbn) 4 ∧
      segOf (emitLines (pprint_line [(specEmpty, [exA, exB])]) ++
          fmt_variant 80 exA specEmpty (max_name_default_len c10_vbn) 4)
        (print_variants 80 c10_vbn)) :=
  ⟨by decide,
    single_condition_first_definition_only 80 c10_vbn "n" specEmpty exA [exB] (by decide)⟩

theorem data_append (a b : String) : (a ++ b).data = a.data ++ b.data := rfl

theorem splitSepAux_ne_nil (sep : Char) (l : List Char) : splitSepAux sep l ≠ [] := by
  induction l with
  | nil => simp [splitSepAux]
  | cons c cs ih =>
    simp only [splitSepAux]
    rcases h : splitSepAux sep cs with _ | ⟨x, xs⟩
    · exact absurd h ih
    · by_cases hc : c = sep <;> simp [hc]

theorem splitSepAux_sep (sep : Char) (a b : List Char) :
    splitSepAux sep (a ++ sep :: b) = splitSepAux sep a ++ splitSepAux sep b := by
  induction a with
  | nil =>
    rcases h : splitSepAux sep b with _ | ⟨x, xs⟩
    · exact absurd h (splitSepAux_ne_nil sep b)
    · simp [splitSepAux, h]
  | cons c cs ih =>
    rcases h : splitSepAux sep cs with _ | ⟨y, ys⟩
    · exact absurd h (splitSepAux_ne_nil sep cs)
    · by_cases hc : c = sep <;> simp [splitSepAux, ih, h, hc]

theorem splitSepAux_noSep {sep : Char} :
    ∀ {l : List Char}, (∀ c ∈ l, c ≠ sep) → splitSepAux sep l = [l] := by
  intro l
  induction l with
  | nil => intro _; rfl
  | cons c cs ih =>
    intro h
    have hc : c ≠ sep := h c (List.mem_cons_self _ _)
    have h2 := ih (fun x hx => h x (List.mem_cons_of_mem _ hx))
    simp [splitSepAux, h2, hc]

theorem splitSepAux_frag_noSep (sep : Char) :
    ∀ (l : List Char), ∀ f ∈ splitSepAux sep l, sep ∉ f := by
  intro l
  induction l with
  | nil =>
    intro f hf
    simp only [splitSepAux, List.mem_singleton] at hf
    subst hf
    simp
  | cons c cs ih =>
    intro f hf
    rcases h : splitSepAux sep cs with _ | ⟨x, xs⟩
    · exact absurd h (splitSepAux_ne_nil sep cs)
    · simp only [splitSepAux, h] at hf
      by_cases hc : c = sep
      · rw [if_pos hc] at hf
        rcases List.mem_cons.mp hf with h1 | h2
        · subst h1; simp
        · exact ih f (h ▸ h2)
      · rw [if_neg hc] at hf
        rcases List.mem_cons.mp hf with h1 | h2
        · subst h1
          intro hmem
          rcases List.mem_cons.mp hmem with h3 | h4
          · exact hc h3.symm
          · exact ih x (h ▸ List.mem_cons_self _ _) h4
        · exact ih f (h ▸ List.mem_cons_of_mem _ h2)

theorem splitSepAux_joinCharNl (ws : List (List Char)) (hne : ws ≠ [])
    (hn : ∀ w ∈ ws, ('\n') ∉ w) : splitSepAux '\n' (joinCharNl ws) = ws := by
  induction ws with
  | nil => exact absurd rfl hne
  | cons w rest ih =>
    cases rest with
    | nil =>
      show splitSepAux '\n' w = [w]
      have hw : ∀ c ∈ w, c ≠ '\n' := fun c hc he => (hn w (List.mem_cons_self _ _)) (he ▸ hc)
      exact splitSepAux_noSep hw
    | cons w2 r2 =>
      show splitSepAux '\n' (w ++ '\n' :: joinCharNl (w2 :: r2)) = w :: w2 :: r2
      have hw : ∀ c ∈ w, c ≠ '\n' := fun c hc he => (hn w (List.mem_cons_self _ _)) (he ▸ hc)
      rw [splitSepAux_sep, splitSepAux_noSep hw,
        ih (List.cons_ne_nil _ _) (fun x hx => hn x (List.mem_cons_of_mem _ hx))]
      rfl

theorem splitSepAux_joinCharNl_flatten (ws : List (List Char)) (hne : ws ≠ []) :
    splitSepAux '\n' (joinCharNl ws) = (ws.map (splitSepAux '\n')).flatten := by
  induction ws with
  | nil => exact absurd rfl hne
  | cons w rest ih =>
    cases rest with
    | nil => simp [joinCharNl]
    | cons w2 r2 =>
      show splitSepAux '\n' (w ++ '\n' :: joinCharNl (w2 :: r2)) = _
      rw [splitSepAux_sep, ih (List.cons_ne_nil _ _)]
      simp

theorem drop_append_le {α : Type} :
    ∀ (a b : List α) (k : Nat), k ≤ a.length → (a ++ b).drop k = a.drop k ++ b := by
  intro a
  induction a with
  | nil =>
    intro b k hk
    have : k = 0 := Nat.le_zero.mp hk
    subst this
    rfl
  | cons c cs ih =>
    intro b k hk
    cases k with
    | zero => rfl
    | succ m =>
      simp only [List.cons_append, List.drop_succ_cons]
      exact ih b m (Nat.succ_le_succ_iff.mp hk)

theorem drop_append_gt {α : Type} :
    ∀ (a b : List α) (k : Nat), a.length < k → (a ++ b).drop k = b.drop (k - a.length) := by
  intro a
  induction a with
  | nil =>
    intro b k _
    simp
  | cons c cs ih =>
    intro b k hk
    cases k with
    | zero => exact absurd hk (by simp)
    | succ m =>
      simp only [List.cons_append, List.drop_succ_cons]
      rw [ih b m (Nat.lt_of_succ_lt_succ hk)]
      congr 1
      exact (Nat.succ_sub_succ _ _).symm

theorem joinSep_nl_data (ls : List String) :
    (joinSep "\n" ls).data = joinCharNl (ls.map String.data) := by
  induction ls with
  | nil => rfl
  | cons s rest ih =>
    cases rest with
    | nil => rfl
    | cons s2 r2 =>
      show ((s ++ "\n") ++ joinSep "\n" (s2 :: r2)).data = _
      rw [data_append, data_append, ih]
      show (s.data ++ ['\n']) ++ joinCharNl ((s2 :: r2).map String.data) =
        s.data ++ '\n' :: joinCharNl ((s2 :: r2).map String.data)
      simp

theorem splitSepAux_drop_join (r : List Char) (hr : ∀ c ∈ r, c ≠ '\n') :
    ∀ (ws : List (List Char)), ws ≠ [] → (∀ w ∈ ws, ∀ c ∈ w, c ≠ '\n') → ∀ (k : Nat),
    ∃ s t, splitSepAux '\n' ((joinCharNl ws).drop k ++ r) = s :: t ∧
      (∀ x ∈ t, x ∈ ws ∨ ∃ w ∈ ws, x = w ++ r) ∧
      (k = 0 → s ∈ ws ∨ ∃ w ∈ ws, s = w ++ r) := by
  intro ws
  induction ws with
  | nil => intro h; exact absurd rfl h
  | cons w rest ih =>
    intro _ hn k
    cases rest with
    | nil =>
      have hnw : ∀ c ∈ w.drop k ++ r, c ≠ '\n' := by
        intro c hc
        rcases List.mem_append.mp hc with h1 | h2
        · exact hn w (List.mem_cons_self _ _) c (List.drop_subset _ _ h1)
        · exact hr c h2
      refine ⟨w.drop k ++ r, [], ?_, by simp, ?_⟩
      · show splitSepAux '\n' ((joinCharNl [w]).drop k ++ r) = [w.drop k ++ r]
        exact splitSepAux_noSep hnw
      · intro hk
        subst hk
        right
        exact ⟨w, List.mem_cons_self _ _, by simp⟩
    | cons w2 r2 =>
      by_cases hk : k ≤ w.length
      · have hw : ∀ c ∈ w.drop k, c ≠ '\n' :=
          fun c hc => hn w (List.mem_cons_self _ _) c (List.drop_subset _ _ hc)
        obtain ⟨s, t, heq, ht, hs0⟩ :=
          ih (List.cons_ne_nil _ _) (fun x hx => hn x (List.mem_cons_of_mem _ hx)) 0
        refine ⟨w.drop k, s :: t, ?_, ?_, ?_⟩
        · show splitSepAux '\n' ((joinCharNl (w :: w2 :: r2)).drop k ++ r) = _
          have h1 : (joinCharNl (w :: w2 :: r2)).drop k =
              w.drop k ++ '\n' :: joinCharNl (w2 :: r2) := by
            show (w ++ '\n' :: joinCharNl (w2 :: r2)).drop k = _
            exact drop_append_le _ _ _ hk
          rw [h1]
          have h2 : (w.drop k ++ '\n' :: joinCharNl (w2 :: r2)) ++ r =
              w.drop k ++ '\n' :: (joinCharNl (w2 :: r2) ++ r) := by simp
          rw [h2, splitSepAux_sep, splitSepAux_noSep hw]
          have h3 : joinCharNl (w2 :: r2) ++ r = (joinCharNl (w2 :: r2)).drop 0 ++ r := by
            rw [List.drop_zero]
          rw [h3, heq]
          rfl
        · intro x hx
          rcases List.mem_cons.mp hx with h1 | h2
          · subst h1
            rcases hs0 rfl with hh | ⟨w', hw', he⟩
            · exact Or.inl (List.mem_cons_of_mem _ hh)
            · exact Or.inr ⟨w', List.mem_cons_of_mem _ hw', he⟩
          · rcases ht x h2 with hh | ⟨w', hw', he⟩
            · exact Or.inl (List.mem_cons_of_mem _ hh)
            · exact Or.inr ⟨w', List.mem_cons_of_mem _ hw', he⟩
        · intro hk0
          subst hk0
          left
          simp
      · have hlt : w.length < k := Nat.not_le.mp hk
        have h1 : (joinCharNl (w :: w2 :: r2)).drop k =
            ('\n' :: joinCharNl (w2 :: r2)).drop (k - w.length) := by
          show (w ++ '\n' :: joinCharNl (w2 :: r2)).drop k = _
          exact drop_append_gt _ _ _ hlt
        rcases hm : k - w.length with _ | m
        · exact absurd hm (by omega)
        · have h2 : ('\n' :: joinCharNl (w2 :: r2)).drop (k - w.length) =
              (joinCharNl (w2 :: r2)).drop m := by rw [hm]; rfl
          obtain ⟨s, t, heq, ht, _⟩ :=
            ih (List.cons_ne_nil _ _) (fun x hx => hn x (List.mem_cons_of_mem _ hx)) m
          refine ⟨s, t, ?_, ?_, ?_⟩
          · rw [h1, h2]
            exact heq
          · intro x hx
            rcases ht x hx with hh | ⟨w', hw', he⟩
            · exact Or.inl (List.mem_cons_of_mem _ hh)
            · exact Or.inr ⟨w', List.mem_cons_of_mem _ hw', he⟩
          · intro hk0
            subst hk0
            exact absurd hlt (Nat.not_lt_zero _)

theorem mk_data (s : String) : String.mk s.data = s := rfl

theorem noNl_iff (s : String) : noNl s = true ↔ ∀ c ∈ s.data, c ≠ '\n' := by
  simp [noNl, List.all_eq_true]

theorem noNl_append (a b : String) : noNl (a ++ b) = (noNl a && noNl b) := by
  simp [noNl, data_append, List.all_append]

theorem noNl_spacesN (n : Nat) : noNl (spacesN n) = true := by
  rw [noNl_iff]
  intro c hc
  have h2 := (List.mem_replicate.mp hc).2
  subst h2
  decide

theorem splitLines_noNl (s : String) (h : noNl s = true) : splitLines s = [s] := by
  unfold splitLines
  rw [splitSepAux_noSep ((noNl_iff s).mp h)]
  rfl

theorem splitSepAux_frag_chars (sep : Char) :
    ∀ (l : List Char), ∀ f ∈ splitSepAux sep l, ∀ c ∈ f, c ∈ l := by
  intro l
  induction l with
  | nil =>
    intro f hf c hc
    simp only [splitSepAux, List.mem_singleton] at hf
    subst hf
    cases hc
  | cons c0 cs ih =>
    intro f hf c hc
    rcases h : splitSepAux sep cs with _ | ⟨x, xs⟩
    · exact absurd h (splitSepAux_ne_nil sep cs)
    · simp only [splitSepAux, h] at hf
      by_cases hc0 : c0 = sep
      · rw [if_pos hc0] at hf
        rcases List.mem_cons.mp hf with h1 | h2
        · subst h1; cases hc
        · exact List.mem_cons_of_mem _ (ih f (h ▸ h2) c hc)
      · rw [if_neg hc0] at hf
        rcases List.mem_cons.mp hf with h1 | h2
        · subst h1
          rcases List.mem_cons.mp hc with h3 | h4
          · exact h3 ▸ List.mem_cons_self _ _
          · exact List.mem_cons_of_mem _ (ih x (h ▸ List.mem_cons_self _ _) c h4)
        · exact List.mem_cons_of_mem _ (ih f (h ▸ List.mem_cons_of_mem _ h2) c hc)

theorem splitLines_noNl_out (s : String) : ∀ f ∈ splitLines s, noNl f = true := by
  intro f hf
  unfold splitLines at hf
  obtain ⟨fr, hfr, rfl⟩ := List.mem_map.mp hf
  rw [noNl_iff]
  intro c hc he
  exact (splitSepAux_frag_noSep '\n' s.data fr hfr) (he ▸ hc)

theorem splitSepAux_append_noSep (sep : Char) :
    ∀ (a b : List Char), (∀ c ∈ a, c ≠ sep) →
    ∀ s t, splitSepAux sep b = s :: t → splitSepAux sep (a ++ b) = (a ++ s) :: t := by
  intro a
  induction a with
  | nil =>
    intro b _ s t h
    simpa using h
  | cons c cs ih =>
    intro b h s t hb
    have hc : c ≠ sep := h c (List.mem_cons_self _ _)
    have h2 := ih b (fun x hx => h x (List.mem_cons_of_mem _ hx)) s t hb
    show splitSepAux sep (c :: (cs ++ b)) = ((c :: cs) ++ s) :: t
    simp [splitSepAux, h2, hc]

theorem splitLines_joinSep_noNl (ls : List String) (hne : ls ≠ [])
    (h : ∀ l ∈ ls, noNl l = true) : splitLines (joinSep "\n" ls) = ls := by
  unfold splitLines
  rw [joinSep_nl_data, splitSepAux_joinCharNl]
  · simp only [List.map_map]
    rw [show (String.mk ∘ String.data) = id from funext mk_data, List.map_id]
  · intro hx
    exact hne (List.map_eq_nil_iff.mp hx)
  · intro w hw hmem
    obtain ⟨s, hs, rfl⟩ := List.mem_map.mp hw
    exact ((noNl_iff s).mp (h s hs)) '\n' hmem rfl

theorem splitLines_joinSep (ls : List String) (hne : ls ≠ []) :
    splitLines (joinSep "\n" ls) = (ls.map splitLines).flatten := by
  unfold splitLines
  rw [joinSep_nl_data, splitSepAux_joinCharNl_flatten]
  · rw [List.map_flatten]
    simp only [List.map_map]
    rfl
  · intro hx
    exact hne (List.map_eq_nil_iff.mp hx)

theorem when_marker_data :
    when_marker.data = [' ', ' ', ' ', ' ', ' ', ' ', ' ', ' ', '@', 'B', Char.ofNat 123,
      'w', 'h', 'e', 'n', Char.ofNat 125, ' '] := by
  decide

theorem leadsWith_append_self (p r : List Char) : leadsWith p (p ++ r) = true := by
  induction p with
  | nil => rfl
  | cons c cs ih =>
    show (decide (c = c) && leadsWith cs (cs ++ r)) = true
    simp [ih]

theorem safe_head (c : Char) (rest : List Char) (hc : c ≠ ' ') :
    leadsWith when_marker.data (c :: rest) = false := by
  rw [when_marker_data]
  show (decide (' ' = c) && _) = false
  rw [decide_eq_false (fun h => hc h.symm), Bool.false_and]

theorem safe_at (rest : List Char) :
    leadsWith when_marker.data (' ' :: ' ' :: ' ' :: ' ' :: '@' :: rest) = false := by
  rw [when_marker_data]
  rfl

theorem safe_spaces (n : Nat) (h : 9 ≤ n) (rest : List Char) :
    leadsWith when_marker.data (List.replicate n ' ' ++ rest) = false := by
  obtain ⟨m, rfl⟩ : ∃ m, n = 9 + m := ⟨n - 9, by omega⟩
  rw [when_marker_data, List.replicate_add, List.append_assoc]
  rfl

theorem safe_nil : leadsWith when_marker.data [] = false := by
  rw [when_marker_data]
  rfl

theorem safe_empty : whenLinePred "" = false := by
  unfold whenLinePred
  exact safe_nil

theorem countP_zero_of_safe (L : List String) (h : ∀ l ∈ L, whenLinePred l = false) :
    L.countP whenLinePred = 0 := by
  rw [List.countP_eq_zero]
  intro a ha hp
  rw [h a ha] at hp
  cases hp

theorem greedyPack_chars (width : Nat) :
    ∀ (ws : List String) (cur l : String), l ∈ greedyPack width cur ws →
    ∀ ch ∈ l.data, ch ∈ cur.data ∨ ch = ' ' ∨ ∃ w ∈ ws, ch ∈ w.data := by
  intro ws
  induction ws with
  | nil =>
    intro cur l hl ch hch
    simp only [greedyPack, List.mem_singleton] at hl
    subst hl
    exact Or.inl hch
  | cons w rest ih =>
    intro cur l hl ch hch
    simp only [greedyPack] at hl
    by_cases hc : cur.length + 1 + w.length ≤ width
    · rw [if_pos hc] at hl
      rcases ih (cur ++ " " ++ w) l hl ch hch with h1 | h2 | ⟨w', hw', h3⟩
      · rw [data_append, data_append] at h1
        rcases List.mem_append.mp h1 with h4 | h5
        · rcases List.mem_append.mp h4 with h6 | h7
          · exact Or.inl h6
          · exact Or.inr (Or.inl (by simpa using h7))
        · exact Or.inr (Or.inr ⟨w, List.mem_cons_self _ _, h5⟩)
      · exact Or.inr (Or.inl h2)
      · exact Or.inr (Or.inr ⟨w', List.mem_cons_of_mem _ hw', h3⟩)
    · rw [if_neg hc] at hl
      rcases List.mem_cons.mp hl with h1 | h2
      · subst h1
        exact Or.inl hch
      · rcases ih w l h2 ch hch with h1 | h2' | ⟨w', hw', h3⟩
        · exact Or.inr (Or.inr ⟨w, List.mem_cons_self _ _, h1⟩)
        · exact Or.inr (Or.inl h2')
        · exact Or.inr (Or.inr ⟨w', List.mem_cons_of_mem _ hw', h3⟩)

theorem splitWords_chars (s : String) : ∀ w ∈ splitWords s, ∀ ch ∈ w.data, ch ∈ s.data := by
  intro w hw ch hch
  unfold splitWords at hw
  have hw2 := List.mem_of_mem_filter hw
  obtain ⟨f, hf, rfl⟩ := List.mem_map.mp hw2
  exact splitSepAux_frag_chars ' ' s.data f hf ch hch

theorem textwrap_wrap_shape (width : Nat) (ind text : String) :
    ∀ l ∈ textwrap_wrap width ind text, ∃ c : String, l = ind ++ c ∧
      ∀ ch ∈ c.data, ch ∈ text.data ∨ ch = ' ' := by
  intro l hl
  unfold textwrap_wrap at hl
  rcases hsw : splitWords text with _ | ⟨w, ws⟩
  · rw [hsw] at hl
    cases hl
  · rw [hsw] at hl
    obtain ⟨g, hg, rfl⟩ := List.mem_map.mp hl
    refine ⟨g, rfl, ?_⟩
    intro ch hch
    rcases greedyPack_chars _ _ _ _ hg ch hch with h1 | h2 | ⟨w', hw', h3⟩
    · exact Or.inl (splitWords_chars text w (hsw ▸ List.mem_cons_self _ _) ch h1)
    · exact Or.inr h2
    · exact Or.inl (splitWords_chars text w' (hsw ▸ List.mem_cons_of_mem _ hw') ch h3)

theorem textwrap_wrap_noNl (width n : Nat) (text : String) (ht : noNl text = true) :
    ∀ l ∈ textwrap_wrap width (spacesN n) text, noNl l = true := by
  intro l hl
  obtain ⟨c, rfl, hc⟩ := textwrap_wrap_shape _ _ _ l hl
  rw [noNl_append, noNl_spacesN, Bool.true_and, noNl_iff]
  intro ch hch he
  rcases hc ch hch with h1 | h2
  · exact ((noNl_iff text).mp ht) ch h1 he
  · rw [he] at h2
    cases h2

theorem insertLe_mem (x y : PyVal) : ∀ (l : List PyVal), y ∈ insertLe x l → y = x ∨ y ∈ l := by
  intro l
  induction l with
  | nil =>
    intro h
    simp only [insertLe, List.mem_singleton] at h
    exact Or.inl h
  | cons z zs ih =>
    intro h
    simp only [insertLe] at h
    by_cases hc : pyKeyLe z x = true
    · rw [if_pos hc] at h
      rcases List.mem_cons.mp h with h1 | h2
      · exact Or.inr (h1 ▸ List.mem_cons_self _ _)
      · rcases ih h2 with h3 | h4
        · exact Or.inl h3
        · exact Or.inr (List.mem_cons_of_mem _ h4)
    · rw [if_neg hc] at h
      rcases List.mem_cons.mp h with h1 | h2
      · exact Or.inl h1
      · exact Or.inr h2

theorem pySort_mem : ∀ (l : List PyVal) (x : PyVal), x ∈ pySort l → x ∈ l := by
  intro l
  induction l with
  | nil =>
    intro x h
    simp only [pySort] at h
    cases h
  | cons y ys ih =>
    intro x h
    simp only [pySort] at h
    rcases insertLe_mem y x _ h with h1 | h2
    · exact h1 ▸ List.mem_cons_self _ _
    · exact List.mem_cons_of_mem _ (ih x h2)

theorem noNl_joinSep (sep : String) (hsep : noNl sep = true) :
    ∀ (ls : List String), (∀ s ∈ ls, noNl s = true) → noNl (joinSep sep ls) = true := by
  intro ls
  induction ls with
  | nil =>
    intro _
    rfl
  | cons s rest ih =>
    intro h
    cases rest with
    | nil => exact h s (List.mem_cons_self _ _)
    | cons s2 r2 =>
      show noNl ((s ++ sep) ++ joinSep sep (s2 :: r2)) = true
      rw [noNl_append, noNl_append, h s (List.mem_cons_self _ _), hsep,
        ih (fun x hx => h x (List.mem_cons_of_mem _ hx))]
      rfl

theorem cescapeList_chars : ∀ (l : List Char), ∀ c ∈ cescapeList l, c ∈ l ∨ c = '@' := by
  intro l
  induction l with
  | nil =>
    intro c h
    simp only [cescapeList] at h
    cases h
  | cons x xs ih =>
    intro c h
    simp only [cescapeList] at h
    by_cases hx : x = '@'
    · rw [if_pos hx] at h
      rcases List.mem_cons.mp h with h1 | h2
      · exact Or.inr h1
      · rcases List.mem_cons.mp h2 with h3 | h4
        · exact Or.inr h3
        · rcases ih c h4 with h5 | h6
          · exact Or.inl (List.mem_cons_of_mem _ h5)
          · exact Or.inr h6
    · rw [if_neg hx] at h
      rcases List.mem_cons.mp h with h1 | h2
      · exact Or.inl (h1 ▸ List.mem_cons_self _ _)
      · rcases ih c h2 with h5 | h6
        · exact Or.inl (List.mem_cons_of_mem _ h5)
        · exact Or.inr h6

theorem cescape_noNl (s : String) (h : noNl s = true) : noNl (cescape s) = true := by
  rw [noNl_iff]
  intro c hc he
  rcases cescapeList_chars s.data c hc with h1 | h2
  · exact ((noNl_iff s).mp h) c h1 he
  · rw [he] at h2
    cases h2

theorem noNl_fmt_name_and_default (v : Variant) (hname : noNl v.name = true)
    (hdef : noNl (fmt_value v.default) = true) : noNl (fmt_name_and_default v) = true := by
  unfold fmt_name_and_default
  simp only [noNl_append, hname, hdef, Bool.and_true, Bool.true_and]
  decide

theorem noNl_joined (v : Variant)
    (hvals : ∀ x ∈ variantValuesList v.values, noNl (fmt_value x) = true) :
    noNl (joinSep ", " ((pySort (variantValuesList v.values)).map fmt_value)) = true := by
  apply noNl_joinSep ", " (by decide)
  intro s hs
  obtain ⟨x, hx, rfl⟩ := List.mem_map.mp hs
  exact hvals x (pySort_mem _ x hx)

theorem debug_lines_safe (vv : VariantValues)
    (hv : ∀ x ∈ variantValuesList vv, noNl (reprPyVal x) = true) :
    ∀ l ∈ variantDebugLines vv, whenLinePred l = false := by
  cases vv with
  | seq vs =>
    intro l hl
    simp only [variantDebugLines] at hl
    cases hl
  | scalar v =>
    intro l hl
    have h1 : noNl (reprPyVal v) = true := hv v (by simp [variantValuesList])
    have heq : debug_print_line [v] = "\x3cclass \x27list\x27\x3e [" ++ reprPyVal v ++ "]" := rfl
    have hnl : noNl (debug_print_line [v]) = true := by
      rw [heq, noNl_append, noNl_append, h1]
      decide
    have h3 : emitLines (debug_print_line [v]) = [debug_print_line [v]] :=
      splitLines_noNl _ hnl
    simp only [variantDebugLines] at hl
    rw [h3] at hl
    have h4 := List.mem_singleton.mp hl
    subst h4
    unfold whenLinePred
    rw [heq, data_append, data_append]
    rw [show ("\x3cclass \x27list\x27\x3e [" : String).data =
      '\x3c' :: ("class \x27list\x27\x3e [" : String).data from rfl]
    simp only [List.cons_append]
    exact safe_head _ _ (by decide)

theorem when_part_count (when : String) (hw : noNl when = true) :
    (emitLines (whenLineStr 4 when)).countP whenLinePred = 1 := by
  have heq : whenLineStr 4 when = when_marker ++ cescape when := rfl
  have hnl : noNl (whenLineStr 4 when) = true := by
    rw [heq, noNl_append, cescape_noNl when hw]
    decide
  have h3 : emitLines (whenLineStr 4 when) = [whenLineStr 4 when] := splitLines_noNl _ hnl
  rw [h3]
  have hp : whenLinePred (whenLineStr 4 when) = true := by
    unfold whenLinePred
    rw [heq, data_append]
    exact leadsWith_append_self _ _
  simp [List.countP_cons, hp]

theorem desc_lines_safe (v : Variant) (width : Nat) :
    ∀ l ∈ emitLines (fmt_variant_description v width 12), whenLinePred l = false := by
  intro l hl
  have hfrne : splitLines v.description ≠ [] := by
    unfold splitLines
    intro hx
    exact splitSepAux_ne_nil '\n' v.description.data (List.map_eq_nil_iff.mp hx)
  have hlsne : (splitLines v.description).map
      (fun line => textwrap_fill width (spacesN 12) line) ≠ [] := by
    intro hx
    exact hfrne (List.map_eq_nil_iff.mp hx)
  unfold fmt_variant_description at hl
  have h4 := splitLines_joinSep _ hlsne
  rw [show emitLines (joinSep "\n" ((splitLines v.description).map
      (fun line => textwrap_fill width (spacesN 12) line))) =
    (((splitLines v.description).map (fun line => textwrap_fill width (spacesN 12) line)).map
      splitLines).flatten from h4] at hl
  obtain ⟨L, hL, hlL⟩ := List.mem_flatten.mp hl
  obtain ⟨fl, hfl, hfleq⟩ := List.mem_map.mp hL
  obtain ⟨f, hf, rfl⟩ := List.mem_map.mp hfl
  subst hfleq
  have hfn : noNl f = true := splitLines_noNl_out _ f hf
  unfold textwrap_fill at hlL
  rcases hwrap : textwrap_wrap width (spacesN 12) f with _ | ⟨w1, wrest⟩
  · rw [hwrap] at hlL
    rw [show splitLines (joinSep "\n" ([] : List String)) = [""] from rfl] at hlL
    have h5 := List.mem_singleton.mp hlL
    subst h5
    exact safe_empty
  · rw [hwrap] at hlL
    have hwn : ∀ x ∈ w1 :: wrest, noNl x = true := by
      intro x hx
      exact textwrap_wrap_noNl width 12 f hfn x (hwrap ▸ hx)
    rw [splitLines_joinSep_noNl _ (List.cons_ne_nil _ _) hwn] at hlL
    obtain ⟨c, rfl, _⟩ := textwrap_wrap_shape width (spacesN 12) f l (hwrap ▸ hlL)
    unfold whenLinePred
    rw [data_append]
    exact safe_spaces 12 (by omega) _

theorem composite_line_safe (A : String) (W : List String) (k : Nat)
    (hA : ∃ rest, A.data = ' ' :: ' ' :: ' ' :: ' ' :: '@' :: rest)
    (hAn : noNl A = true)
    (hWn : ∀ x ∈ W, noNl x = true)
    (hWs : ∀ x ∈ W, ∃ n cc, 9 ≤ n ∧ x.data = List.replicate n ' ' ++ cc) :
    ∀ l ∈ emitLines (A ++ strDrop (joinSep "\n" W) k ++ rbrace), whenLinePred l = false := by
  intro l hl
  obtain ⟨Arest, hAr⟩ := hA
  by_cases hWc : W = []
  · subst hWc
    have hemp : strDrop (joinSep "\n" ([] : List String)) k = "" := by
      show String.mk ((("" : String).data).drop k) = ""
      rw [show ("" : String).data = ([] : List Char) from rfl, List.drop_nil]
    rw [hemp] at hl
    have hnl : noNl (A ++ "" ++ rbrace) = true := by
      rw [noNl_append, noNl_append, hAn]
      decide
    rw [show emitLines (A ++ "" ++ rbrace) = [A ++ "" ++ rbrace] from
      splitLines_noNl _ hnl] at hl
    have h5 := List.mem_singleton.mp hl
    subst h5
    unfold whenLinePred
    rw [data_append, data_append, hAr]
    simp only [List.cons_append]
    exact safe_at _
  · have hwsne : W.map String.data ≠ [] := fun hx => hWc (List.map_eq_nil_iff.mp hx)
    have hwsn : ∀ w ∈ W.map String.data, ∀ c ∈ w, c ≠ '\n' := by
      intro w hw c hc he
      obtain ⟨s, hs, rfl⟩ := List.mem_map.mp hw
      exact ((noNl_iff s).mp (hWn s hs)) c hc he
    have hrb : ∀ c ∈ rbrace.data, c ≠ '\n' := by decide
    obtain ⟨s, t, heq, ht, _⟩ :=
      splitSepAux_drop_join rbrace.data hrb (W.map String.data) hwsne hwsn k
    have h1 : (strDrop (joinSep "\n" W) k).data = (joinCharNl (W.map String.data)).drop k := by
      show (joinSep "\n" W).data.drop k = _
      rw [joinSep_nl_data]
    have hdata : (A ++ strDrop (joinSep "\n" W) k ++ rbrace).data =
        A.data ++ ((joinCharNl (W.map String.data)).drop k ++ rbrace.data) := by
      rw [data_append, data_append, h1, List.append_assoc]
    have hsplit : splitSepAux '\n' ((A ++ strDrop (joinSep "\n" W) k ++ rbrace).data) =
        (A.data ++ s) :: t := by
      rw [hdata]
      exact splitSepAux_append_noSep '\n' A.data _ ((noNl_iff A).mp hAn) s t heq
    unfold emitLines splitLines at hl
    rw [hsplit] at hl
    rcases List.mem_map.mp hl with ⟨f, hf, rfl⟩
    rcases List.mem_cons.mp hf with hcase | hcase
    · subst hcase
      unfold whenLinePred
      rw [show (String.mk (A.data ++ s)).data = A.data ++ s from rfl, hAr]
      simp only [List.cons_append]
      exact safe_at _
    · rcases ht f hcase with hh | ⟨wd, hwd, rfl⟩
      · obtain ⟨x, hx, rfl⟩ := List.mem_map.mp hh
        obtain ⟨n, cc, hn, hxd⟩ := hWs x hx
        unfold whenLinePred
        rw [show (String.mk x.data).data = x.data from rfl, hxd]
        exact safe_spaces n hn cc
      · obtain ⟨x, hx, rfl⟩ := List.mem_map.mp hwd
        obtain ⟨n, cc, hn, hxd⟩ := hWs x hx
        unfold whenLinePred
        rw [show (String.mk (x.data ++ rbrace.data)).data = x.data ++ rbrace.data from rfl,
          hxd, List.append_assoc]
        exact safe_spaces n hn _

theorem values_lines_safe (cols ml : Nat) (v : Variant) (hml : 0 < ml)
    (hname : noNl v.name = true) (hdef : noNl (fmt_value v.default) = true)
    (hvals : ∀ x ∈ variantValuesList v.values, noNl (fmt_value x) = true) :
    ∀ l ∈ emitLines (values_line cols v ml 4), whenLinePred l = false := by
  have hvl : values_line cols v ml 4 =
      (spacesN 4 ++ fmt_name_and_default v ++ spacesN 4 ++ "@c" ++ lbrace) ++
        strDrop (joinSep "\n" (textwrap_wrap (cols - 2) (spacesN (4 + ml + 4))
          (joinSep ", " ((pySort (variantValuesList v.values)).map fmt_value))))
          (4 + clen (fmt_name_and_default v) + 4) ++ rbrace := rfl
  rw [hvl]
  apply composite_line_safe
  · exact ⟨_, rfl⟩
  · simp only [noNl_append, noNl_fmt_name_and_default v hname hdef, noNl_spacesN,
      Bool.true_and, Bool.and_true]
    decide
  · intro x hx
    exact textwrap_wrap_noNl _ _ _ (noNl_joined v hvals) x hx
  · intro x hx
    obtain ⟨c, rfl, _⟩ := textwrap_wrap_shape _ _ _ x hx
    refine ⟨4 + ml + 4, c.data, by omega, ?_⟩
    rw [data_append]
    rfl

theorem whenLineStr_noNl (when : String) (hw : noNl when = true) :
    noNl (whenLineStr 4 when) = true := by
  rw [show whenLineStr 4 when = when_marker ++ cescape when from rfl, noNl_append,
    cescape_noNl when hw]
  decide

/-- Claim C7: in a rendered variant block (at the indent 4 and a
positive name-column width, as `print_variants` always supplies, and
for newline-free package metadata), no `when` line is printed when the
owning condition is the unconditional empty condition, and exactly one
`when` line — carrying the condition's escaped textual form — is
printed when the condition is non-empty. -/
theorem when_line_iff_nonempty_condition (cols ml : Nat) (v : Variant) (when : String)
    (hml : 0 < ml) (hwf : variantWf v = true) (hw : noNl when = true) :
    (when = specEmpty → (fmt_variant cols v when ml 4).countP whenLinePred = 0) ∧
    (when ≠ specEmpty → (fmt_variant cols v when ml 4).countP whenLinePred = 1 ∧
      whenLineStr 4 when ∈ fmt_variant cols v when ml 4) := by
  unfold variantWf at hwf
  simp only [Bool.and_eq_true] at hwf
  obtain ⟨⟨hname, hdef⟩, hall⟩ := hwf
  have hvals : ∀ x ∈ variantValuesList v.values, noNl (fmt_value x) = true := by
    intro x hx
    have h2 := (List.all_eq_true.mp hall) x hx
    rw [Bool.and_eq_true] at h2
    exact h2.1
  have hreprs : ∀ x ∈ variantValuesList v.values, noNl (reprPyVal x) = true := by
    intro x hx
    have h2 := (List.all_eq_true.mp hall) x hx
    rw [Bool.and_eq_true] at h2
    exact h2.2
  have hdbg := debug_lines_safe v.values hreprs
  have hvls := values_lines_safe cols ml v hml hname hdef hvals
  have hdesc := desc_lines_safe v (cols - 2)
  constructor
  · intro he
    subst he
    have hfv : fmt_variant cols v specEmpty ml 4 =
        variantDebugLines v.values ++ emitLines (values_line cols v ml 4) ++
          ([] : List String) ++
          emitLines (fmt_variant_description v (cols - 2) 12) := by
      unfold fmt_variant
      rw [if_neg (by simp)]
    rw [hfv, List.countP_append, List.countP_append, List.countP_append,
      countP_zero_of_safe _ hdbg, countP_zero_of_safe _ hvls, countP_zero_of_safe _ hdesc]
    simp
  · intro hne
    have hfv : fmt_variant cols v when ml 4 =
        variantDebugLines v.values ++ emitLines (values_line cols v ml 4) ++
          emitLines (whenLineStr 4 when) ++
          emitLines (fmt_variant_description v (cols - 2) 12) := by
      unfold fmt_variant
      rw [if_pos hne]
    constructor
    · rw [hfv, List.countP_append, List.countP_append, List.countP_append,
        countP_zero_of_safe _ hdbg, countP_zero_of_safe _ hvls, countP_zero_of_safe _ hdesc,
        when_part_count when hw]
    · have hone : emitLines (whenLineStr 4 when) = [whenLineStr 4 when] :=
        splitLines_noNl _ (whenLineStr_noNl when hw)
      rw [hfv]
      apply List.mem_append_left
      apply List.mem_append_right
      rw [hone]
      exact List.mem_singleton_self _

/-- Witness for the C7 theorem: a concrete variant under the empty and
under a non-empty condition. -/
theorem when_line_iff_nonempty_condition_witness :
    (0 < 8) ∧ (variantWf exA = true) ∧ (noNl "+x" = true) ∧
    ((("+x" : String) = specEmpty → (fmt_variant 80 exA "+x" 8 4).countP whenLinePred = 0) ∧
      (("+x" : String) ≠ specEmpty → (fmt_variant 80 exA "+x" 8 4).countP whenLinePred = 1 ∧
        whenLineStr 4 "+x" ∈ fmt_variant 80 exA "+x" 8 4)) :=
  ⟨by decide, by decide, by decide,
    when_line_iff_nonempty_condition 80 8 exA "+x" (by decide) (by decide) (by decide)⟩
